import Mathlib

/-!
Verification of the parsing core of the `eo-identifiers` crate.

The development shallowly embeds the relevant Rust source:

* `src/common_parsers.rs` — the primitive token parsers (`take_n_digits`,
  `take_n_digits_in_range`, `sign`, `date_year`, the date/time field parsers)
  and the composite temporal parsers (`parse_simple_date`, `parse_simple_time`,
  `parse_esa_timestamp`).
* `src/from_str.rs` — the `ParseError` model, `map_parser`, and the
  multi-grammar dispatch loop of `impl FromStr for Identifier`.
* `src/identifiers/landsat.rs` — `parse_julian_date`, `parse_sensor` and
  `parse_scene_id`.
* `src/identifiers/sentinel2.rs` — `parse_relative_orbit_number`.

Modelling conventions:

* Input strings are lists of Unicode scalar values (`List Nat`); every parser
  consumes a prefix and returns the unconsumed suffix, exactly as nom's string
  parsers do.
* nom's `IResult` is modelled by `PResult`: `ok rest val` for success,
  `err rem` for `nom::Err::Error` / `nom::Err::Failure` (the payload `rem` is
  the input slice stored in `nom::error::Error::new`, from which
  `map_parser` later computes the byte offset), and `panic` for a Rust panic
  (the `expect` in `take_n_digits`, and chrono's panicking `NaiveDate::from_ymd`
  / `NaiveTime::from_hms` constructors).  All combinators used by the crate are
  the `complete`-input variants, which never produce `nom::Err::Incomplete`.
* Machine integers are modelled as `Nat` together with the concrete maximum of
  the Rust target type (`u8Max`, `u32Max`, `i64Max`): `str::parse::<T>` on a
  run of ASCII digits succeeds exactly when the value fits the type, and the
  surrounding `expect` panics otherwise.
* chrono's `NaiveDate` is modelled as a year/month/day record; date validity
  and day arithmetic follow the proleptic Gregorian calendar (the
  days-from-civil / civil-from-days algorithms), with chrono's representable
  year range `-262144..=262143`.
-/

namespace EOIdent

/-- Input strings are modelled as lists of Unicode scalar values. -/
abbrev Str := List Nat

/-- Character codes of a Lean string literal; used to write concrete inputs. -/
def codes (s : String) : Str := s.data.map Char.toNat

/-- Result of a nom parser over `Str`.  `err rem` records the unconsumed input
at the failure point (nom's `Error::new(i, kind)` stores `i`; the `ErrorKind`
is never inspected by the crate's error handling, so it is not modelled).
`panic` models a Rust panic. -/
inductive PResult (α : Type) where
  | ok (rest : Str) (val : α)
  | err (rem : Str)
  | panic
  deriving DecidableEq, Repr

/-- Sequencing of parsers, modelling Rust's `?` operator on `IResult`. -/
def pbind {α β : Type} (x : PResult α) (f : Str → α → PResult β) : PResult β :=
  match x with
  | .ok r v => f r v
  | .err e => .err e
  | .panic => .panic

/-- nom's `map` combinator applied to a parser result. -/
def pmap {α β : Type} (f : α → β) (x : PResult α) : PResult β :=
  match x with
  | .ok r v => .ok r (f v)
  | .err e => .err e
  | .panic => .panic

/-- nom's `opt` combinator: on `Err::Error` it succeeds with `none` without
consuming input. -/
def popt {α : Type} (p : Str → PResult α) (i : Str) : PResult (Option α) :=
  match p i with
  | .ok r v => .ok r (some v)
  | .err _ => .ok i none
  | .panic => .panic

/-- Fallback on `Err::Error`, the combining step of nom's `alt`. -/
def porelse {α : Type} (x : PResult α) (f : Unit → PResult α) : PResult α :=
  match x with
  | .ok r v => .ok r v
  | .err _ => f ()
  | .panic => .panic

/-- nom's `alt` combinator over a list of alternatives: the first success wins;
if all alternatives fail, the error of the last one is returned (every
alternative used in this crate fails with the original input as payload, so
the payload is `i` in each case). -/
def altL {α : Type} (ps : List (Str → PResult α)) (i : Str) : PResult α :=
  match ps with
  | [] => .err i
  | [p] => p i
  | p :: q :: qs => porelse (p i) (fun _ => altL (q :: qs) i)

/-- `is_char_digit` from `common_parsers.rs`: ASCII and a decimal digit. -/
def is_char_digit (c : Nat) : Bool := decide (48 ≤ c ∧ c ≤ 57)

/-- `is_char_alphanumeric` from `common_parsers.rs`: ASCII letter or digit. -/
def is_char_alphanumeric (c : Nat) : Bool :=
  decide ((48 ≤ c ∧ c ≤ 57) ∨ (65 ≤ c ∧ c ≤ 90) ∨ (97 ≤ c ∧ c ≤ 122))

/-- ASCII lower-casing of one character code. -/
def lowerCode (c : Nat) : Nat := if 65 ≤ c ∧ c ≤ 90 then c + 32 else c

/-- ASCII upper-casing of one character code (`str::to_uppercase` restricted to
the ASCII-alphanumeric runs it is applied to in this crate). -/
def upperCode (c : Nat) : Nat := if 97 ≤ c ∧ c ≤ 122 then c - 32 else c

/-- ASCII lower-casing of a string. -/
def lowerStr (s : Str) : Str := s.map lowerCode

/-- ASCII upper-casing of a string. -/
def upperStr (s : Str) : Str := s.map upperCode

/-- nom's complete `take_while_m_n m n pred` on `&str` (with `m ≤ n`, the only
uses in this crate): take the longest satisfying prefix, capped at `n`; fail at
the start of the input when it is shorter than `m`. -/
def takeWhileMN (m n : Nat) (p : Nat → Bool) (i : Str) : PResult Str :=
  let k := (i.takeWhile p).length
  if m ≤ k then .ok (i.drop (min k n)) (i.take (min k n)) else .err i

/-- nom's complete `take(n)` on `&str`. -/
def takeP (n : Nat) (i : Str) : PResult Str :=
  if n ≤ i.length then .ok (i.drop n) (i.take n) else .err i

/-- nom's complete `tag(t)` on `&str` (case-sensitive literal). -/
def tagP (t : Str) (i : Str) : PResult Str :=
  if i.take t.length = t then .ok (i.drop t.length) t else .err i

/-- nom's complete `tag_no_case(t)` on `&str`: ASCII-case-insensitive literal.
(The crate's tags are ASCII strings without the letter `k`, so nom's Unicode
case folding agrees with ASCII folding on them for every input.) -/
def tagNoCase (t : Str) (i : Str) : PResult Str :=
  if lowerStr (i.take t.length) = lowerStr t then
    .ok (i.drop t.length) (i.take t.length)
  else .err i

/-- Numeric value of a run of ASCII digit codes, as in `str::parse`. -/
def natOfDigits (l : Str) : Nat := l.foldl (fun a c => a * 10 + (c - 48)) 0

/-- Maximum of Rust's `u8`. -/
def u8Max : Nat := 255

/-- Maximum of Rust's `u32`. -/
def u32Max : Nat := 4294967295

/-- Maximum of Rust's `i64`. -/
def i64Max : Nat := 9223372036854775807

/-- `take_n_digits::<T>(n)` from `common_parsers.rs`: exactly `n` ASCII digits,
parsed with `str::parse::<T>` whose failure (the value exceeding the type's
maximum `tmax`) is turned into a panic by the surrounding `expect`. -/
def take_n_digits (tmax n : Nat) (i : Str) : PResult Nat :=
  match takeWhileMN n n is_char_digit i with
  | .ok r ds => if natOfDigits ds ≤ tmax then .ok r (natOfDigits ds) else .panic
  | .err e => .err e
  | .panic => .panic

/-- `take_n_digits_in_range` from `common_parsers.rs`: as `take_n_digits`, then
the value must lie in `lo..=hi`; an out-of-range value fails with
`Error::new(i, …)` where `i` is the input *before* the digits were consumed. -/
def take_n_digits_in_range (tmax n lo hi : Nat) (i : Str) : PResult Nat :=
  match take_n_digits tmax n i with
  | .ok r v => if lo ≤ v ∧ v ≤ hi then .ok r v else .err i
  | .err e => .err e
  | .panic => .panic

/-- `sign` from `common_parsers.rs`: a literal `-` or `+`, mapped to `-1` / `1`. -/
def sign (i : Str) : PResult Int :=
  pmap (fun s => if s = [45] then (-1 : Int) else 1) (altL [tagP [45], tagP [43]] i)

/-- `date_year` from `common_parsers.rs`: optional sign, then four digits
parsed as `u32`, combined as `sign * year`. -/
def date_year (i : Str) : PResult Int :=
  pbind (popt sign i) fun r os =>
    pbind (take_n_digits u32Max 4 r) fun r2 y =>
      .ok r2 (os.getD 1 * (y : Int))

/-- `date_month`: two digits in `1..=12` (as `u32`). -/
def date_month (i : Str) : PResult Nat := take_n_digits_in_range u32Max 2 1 12 i

/-- `date_day`: two digits in `1..=31` (as `u32`). -/
def date_day (i : Str) : PResult Nat := take_n_digits_in_range u32Max 2 1 31 i

/-- `time_hour`: two digits in `0..=24` (as `u32`). -/
def time_hour (i : Str) : PResult Nat := take_n_digits_in_range u32Max 2 0 24 i

/-- `time_minute`: two digits in `0..=59` (as `u32`). -/
def time_minute (i : Str) : PResult Nat := take_n_digits_in_range u32Max 2 0 59 i

/-- `time_second`: two digits in `0..=60` (as `u32`). -/
def time_second (i : Str) : PResult Nat := take_n_digits_in_range u32Max 2 0 60 i

/-- `t_separator`: a case-insensitive literal `t`. -/
def t_separator (i : Str) : PResult Unit := pmap (fun _ => ()) (tagNoCase [116] i)

/-- chrono `NaiveDate`, as the year/month/day triple it prints as. -/
structure Date where
  year : Int
  month : Nat
  day : Nat
  deriving DecidableEq, Repr

/-- Proleptic-Gregorian leap-year predicate (chrono's calendar). -/
def isLeapYear (y : Int) : Bool := y % 4 == 0 && (y % 100 != 0 || y % 400 == 0)

/-- Length of a calendar month. -/
def daysInMonth (y : Int) (m : Nat) : Nat :=
  match m with
  | 1 => 31 | 2 => if isLeapYear y then 29 else 28 | 3 => 31 | 4 => 30
  | 5 => 31 | 6 => 30 | 7 => 31 | 8 => 31 | 9 => 30 | 10 => 31
  | 11 => 30 | 12 => 31 | _ => 0

/-- chrono's representable year range (`NaiveDate` stores the year in an
`i32 >> 13`). -/
def chronoYearOk (y : Int) : Bool := decide (-262144 ≤ y ∧ y ≤ 262143)

/-- Validity condition of chrono's `NaiveDate::from_ymd_opt`. -/
def validYmd (y : Int) (m d : Nat) : Bool :=
  chronoYearOk y && decide (1 ≤ m ∧ m ≤ 12) && decide (1 ≤ d ∧ d ≤ daysInMonth y m)

/-- Day count since 1970-01-01 of a proleptic-Gregorian date (the standard
days-from-civil computation; chrono's internal day arithmetic agrees with it). -/
def daysFromCivil (y : Int) (m d : Nat) : Int :=
  let y2 := if m ≤ 2 then y - 1 else y
  let era := y2.fdiv 400
  let yoe := (y2 - era * 400).toNat
  let mp := if 2 < m then m - 3 else m + 9
  let doy := (153 * mp + 2) / 5 + d - 1
  let doe := yoe * 365 + yoe / 4 - yoe / 100 + doy
  era * 146097 + (doe : Int) - 719468

/-- Proleptic-Gregorian date of a day count since 1970-01-01 (the standard
civil-from-days computation). -/
def civilFromDays (z : Int) : Date :=
  let z2 := z + 719468
  let era := z2.fdiv 146097
  let doe := (z2 - era * 146097).toNat
  let yoe := (doe - doe / 1460 + doe / 36524 - doe / 146096) / 365
  let y : Int := (yoe : Int) + era * 400
  let doy := doe - (365 * yoe + yoe / 4 - yoe / 100)
  let mp := (5 * doy + 2) / 153
  let d := doy - (153 * mp + 2) / 5 + 1
  let m := if mp < 10 then mp + 3 else mp - 9
  ⟨if m ≤ 2 then y + 1 else y, m, d⟩

/-- `parse_simple_date` from `common_parsers.rs`: year, month, day fields, then
chrono's `NaiveDate::from_ymd`, which *panics* on an invalid calendar date. -/
def parse_simple_date (i : Str) : PResult Date :=
  pbind (date_year i) fun r y =>
    pbind (date_month r) fun r2 m =>
      pbind (date_day r2) fun r3 d =>
        if validYmd y m d then .ok r3 ⟨y, m, d⟩ else .panic

/-- chrono `NaiveTime` restricted to whole seconds, as stored by the crate. -/
structure Time where
  hour : Nat
  minute : Nat
  second : Nat
  deriving DecidableEq, Repr

/-- `parse_simple_time` from `common_parsers.rs`: hour, minute, second fields,
then chrono's `NaiveTime::from_hms`, which *panics* when the hour exceeds 23
or minute/second exceed 59. -/
def parse_simple_time (i : Str) : PResult Time :=
  pbind (time_hour i) fun r h =>
    pbind (time_minute r) fun r2 mn =>
      pbind (time_second r2) fun r3 s =>
        if h ≤ 23 ∧ mn ≤ 59 ∧ s ≤ 59 then .ok r3 ⟨h, mn, s⟩ else .panic

/-- chrono `NaiveDateTime`. -/
structure DateTime where
  date : Date
  time : Time
  deriving DecidableEq, Repr

/-- `parse_esa_timestamp` from `common_parsers.rs`: a date, an optional
case-insensitive `T` separator, and a time. -/
def parse_esa_timestamp (i : Str) : PResult DateTime :=
  pbind (parse_simple_date i) fun r d =>
    pbind (popt t_separator r) fun r2 _ =>
      pbind (parse_simple_time r2) fun r3 t =>
        .ok r3 ⟨d, t⟩

/-- `parse_julian_date` from `identifiers/landsat.rs`: signed 4-digit year,
3-digit day-of-year parsed as `i64`, then `NaiveDate::from_ymd_opt(year, 1, 1)`
(failing at the input position after the year when the year is out of chrono's
range) plus `Duration::days(day_of_year - 1)` (which panics if the resulting
date leaves chrono's range). -/
def parse_julian_date (i : Str) : PResult Date :=
  pbind (date_year i) fun s y =>
    match take_n_digits i64Max 3 s with
    | .ok sOut doy =>
      if chronoYearOk y then
        let dt := civilFromDays (daysFromCivil y 1 1 + ((doy : Int) - 1))
        if chronoYearOk dt.year then .ok sOut dt else .panic
      else .err s
    | .err e => .err e
    | .panic => .panic

/-- `Sensor` from `identifiers/landsat.rs`. -/
inductive Sensor where
  | OLI_TRIS | OLI | IRS | ETM_PLUS | TM | MSS
  deriving DecidableEq, Repr

/-- `MissionId` from `identifiers/landsat.rs`. -/
inductive MissionId where
  | Landsat1 | Landsat2 | Landsat3 | Landsat4 | Landsat5
  | Landsat6 | Landsat7 | Landsat8 | Landsat9
  deriving DecidableEq, Repr

/-- `From<u8> for MissionId`.  The `parse_scene_id` caller range-checks the
digit into `1..=9` before converting, so the Rust panic on other values is
unreachable there; the catch-all branch is arbitrary. -/
def missionIdOfNat (v : Nat) : MissionId :=
  match v with
  | 1 => .Landsat1 | 2 => .Landsat2 | 3 => .Landsat3 | 4 => .Landsat4
  | 5 => .Landsat5 | 6 => .Landsat6 | 7 => .Landsat7 | 8 => .Landsat8
  | 9 => .Landsat9 | _ => .Landsat1

/-- `parse_sensor` from `identifiers/landsat.rs`: one of the case-insensitive
letter tags `c`, `o`, `t`, `e`, `m`; the meaning of `t` depends on the mission
number. -/
def parse_sensor (s : Str) (mission : Nat) : PResult Sensor :=
  altL
    [ fun j => pmap (fun _ => Sensor.OLI_TRIS) (tagNoCase [99] j),
      fun j => pmap (fun _ => Sensor.OLI) (tagNoCase [111] j),
      fun j =>
        pmap (fun _ => if mission = 4 ∨ mission = 5 then Sensor.TM else Sensor.IRS)
          (tagNoCase [116] j),
      fun j => pmap (fun _ => Sensor.ETM_PLUS) (tagNoCase [101] j),
      fun j => pmap (fun _ => Sensor.MSS) (tagNoCase [109] j) ] s

/-- `SceneId` from `identifiers/landsat.rs`. -/
structure SceneId where
  sensor : Sensor
  mission : MissionId
  wrs_path : Nat
  wrs_row : Nat
  acquire_date : Date
  ground_station_identifier : Str
  archive_version_number : Nat
  deriving DecidableEq, Repr

/-- `parse_scene_id` from `identifiers/landsat.rs`.  Note that the sensor is
parsed from `s_sensor` (the input right after the leading `L`), whose first
character was skipped by `take(1)` before the mission digit was read. -/
def parse_scene_id (i : Str) : PResult SceneId :=
  pbind (tagNoCase [108] i) fun sSensor _ =>
    pbind (takeP 1 sSensor) fun s0 _ =>
      pbind (take_n_digits_in_range u8Max 1 1 9 s0) fun s1 mission =>
        pbind (parse_sensor sSensor mission) fun _ sensor =>
          pbind (take_n_digits u32Max 3 s1) fun s2 wrsPath =>
            pbind (take_n_digits u32Max 3 s2) fun s3 wrsRow =>
              pbind (parse_julian_date s3) fun s4 acq =>
                pbind (takeWhileMN 3 3 is_char_alphanumeric s4) fun s5 gsi =>
                  pbind (take_n_digits u8Max 2 s5) fun s6 avn =>
                    .ok s6 ⟨sensor, missionIdOfNat mission, wrsPath, wrsRow,
                      acq, upperStr gsi, avn⟩

/-- `parse_relative_orbit_number` from `identifiers/sentinel2.rs`: a
case-insensitive `R`, then three digits in `1..=143` parsed as `u8`. -/
def parse_relative_orbit_number (i : Str) : PResult Nat :=
  pbind (tagNoCase [114] i) fun s _ => take_n_digits_in_range u8Max 3 1 143 s

/-- `ParseError` from `from_str.rs`. -/
inductive ParseError where
  | NotEnoughData (p : Nat)
  | FailedAtPosition (p : Nat)
  deriving DecidableEq, Repr

/-- `ParseError::error_pos`. -/
def ParseError.error_pos : ParseError → Nat
  | .NotEnoughData p => p
  | .FailedAtPosition p => p

/-- Outcome of a `Result<_, ParseError>`-returning entry point, with `panic`
again modelling a Rust panic. -/
inductive RunResult (α : Type) where
  | ok (val : α)
  | err (e : ParseError)
  | panic
  deriving DecidableEq, Repr

/-- `map_parser` from `from_str.rs`: run a nom parser on the whole input,
discard the unconsumed suffix on success, and turn a nom error into a
`ParseError` positioned at `s.len() - e.input.len()`.  The `Err::Incomplete`
branch of the source is dead code here, since every parser of the crate is
built from complete-input combinators. -/
def mapParserFn {α : Type} (p : Str → PResult α) (s : Str) : RunResult α :=
  match p s with
  | .ok _ v => .ok v
  | .err rem => .err (.FailedAtPosition (s.length - rem.length))
  | .panic => .panic

/-- The expansion of the `try_parser!` loop in `Identifier::from_str`: try each
grammar in order, return the first success, and otherwise keep the error whose
`error_pos` is strictly largest so far in the accumulator `closest`. -/
def fromStrAux {α : Type} (s : Str) (closest : ParseError) :
    List (Str → PResult α) → RunResult α
  | [] => .err closest
  | p :: ps =>
    match mapParserFn p s with
    | .ok v => .ok v
    | .err e =>
      fromStrAux s (if e.error_pos > closest.error_pos then e else closest) ps
    | .panic => .panic

/-- `Identifier::from_str` from `from_str.rs`, abstracted over the ordered
grammar registry: the accumulator starts as `ParseError::NotEnoughData(0)`. -/
def from_str {α : Type} (grammars : List (Str → PResult α)) (s : Str) : RunResult α :=
  fromStrAux s (.NotEnoughData 0) grammars

/-- Relation used to compare a parser run on an input with the run on its
ASCII-lowercased form: both fail, both panic, or both succeed with the
unconsumed suffix of the second run equal to the lowercased suffix of the
first and with the result values related by `r`. -/
def PRel {α : Type} (r : α → α → Prop) : PResult α → PResult α → Prop
  | .ok a v, .ok a2 v2 => a2 = lowerStr a ∧ r v v2
  | .err _, .err _ => True
  | .panic, .panic => True
  | _, _ => False

/-! ### Helper lemmas about lists and digit runs -/

theorem take_app_le : ∀ (n : Nat) (l l2 : Str), n ≤ l.length →
    (l ++ l2).take n = l.take n := by
  intro n
  induction n with
  | zero => intro l l2 _; simp
  | succ k ih =>
    intro l l2 h
    cases l with
    | nil => simp at h
    | cons c t =>
      simp only [List.cons_append, List.take_succ_cons, List.length_cons] at *
      rw [ih t l2 (Nat.le_of_succ_le_succ h)]

theorem drop_app_le : ∀ (n : Nat) (l l2 : Str), n ≤ l.length →
    (l ++ l2).drop n = l.drop n ++ l2 := by
  intro n
  induction n with
  | zero => intro l l2 _; simp
  | succ k ih =>
    intro l l2 h
    cases l with
    | nil => simp at h
    | cons c t =>
      simp only [List.cons_append, List.drop_succ_cons, List.length_cons] at *
      exact ih t l2 (Nat.le_of_succ_le_succ h)

theorem tw_len_le (p : Nat → Bool) : ∀ (l : Str), (l.takeWhile p).length ≤ l.length := by
  intro l
  induction l with
  | nil => simp [List.takeWhile]
  | cons c t ih =>
    by_cases h : p c
    · simp [List.takeWhile, h]; exact ih
    · simp [List.takeWhile, h]

theorem tw_all (p : Nat → Bool) : ∀ (l : Str) (c : Nat), c ∈ l.takeWhile p → p c = true := by
  intro l
  induction l with
  | nil => intro c hc; simp [List.takeWhile] at hc
  | cons d t ih =>
    intro c hc
    by_cases h : p d
    · simp only [List.takeWhile, h] at hc
      rcases List.mem_cons.mp hc with h1 | h1
      · exact h1 ▸ h
      · exact ih c h1
    · simp only [List.takeWhile] at hc
      rw [Bool.not_eq_true] at h
      rw [h] at hc
      simp at hc

theorem tw_len_ge (p : Nat → Bool) : ∀ (l : Str) (n : Nat),
    (∀ c ∈ l.take n, p c = true) → n ≤ l.length → n ≤ (l.takeWhile p).length := by
  intro l
  induction l with
  | nil => intro n _ h; simpa using h
  | cons c t ih =>
    intro n hall h
    cases n with
    | zero => exact Nat.zero_le _
    | succ k =>
      have hc : p c = true := hall c (by simp)
      simp only [List.takeWhile, hc, List.length_cons]
      have := ih k (fun d hd => hall d (by simp [hd])) (Nat.le_of_succ_le_succ (by simpa using h))
      omega

theorem tw_app_ge (p : Nat → Bool) : ∀ (l l2 : Str) (n : Nat),
    n ≤ (l.takeWhile p).length → n ≤ ((l ++ l2).takeWhile p).length := by
  intro l
  induction l with
  | nil => intro l2 n h; simp [List.takeWhile] at h; omega
  | cons c t ih =>
    intro l2 n h
    by_cases hc : p c
    · simp only [List.cons_append, List.takeWhile, hc, List.length_cons, List.append_eq] at *
      cases n with
      | zero => omega
      | succ k => have := ih l2 k (by omega); omega
    · rw [Bool.not_eq_true] at hc
      simp only [List.takeWhile, hc] at h
      simp at h
      omega

theorem take_takeWhile (p : Nat → Bool) : ∀ (l : Str) (n : Nat),
    n ≤ (l.takeWhile p).length → l.take n = (l.takeWhile p).take n := by
  intro l
  induction l with
  | nil => intro n h; simp [List.takeWhile] at *
  | cons c t ih =>
    intro n h
    by_cases hc : p c
    · simp only [List.takeWhile, hc] at *
      cases n with
      | zero => simp
      | succ k =>
        simp only [List.take_succ_cons]
        rw [ih k (by simpa using h)]
    · rw [Bool.not_eq_true] at hc
      simp only [List.takeWhile, hc] at h
      simp at h
      subst h
      simp

theorem digits_of_take (p : Nat → Bool) (l : Str) (n : Nat)
    (h : n ≤ (l.takeWhile p).length) : ∀ c ∈ l.take n, p c = true := by
  intro c hc
  rw [take_takeWhile p l n h] at hc
  exact tw_all p l c (List.mem_of_mem_take hc)

theorem natOfDigits_lt_aux : ∀ (l : Str) (a : Nat), (∀ c ∈ l, is_char_digit c = true) →
    l.foldl (fun a c => a * 10 + (c - 48)) a < (a + 1) * 10 ^ l.length := by
  intro l
  induction l with
  | nil => intro a _; simp
  | cons c t ih =>
    intro a hall
    have hc : is_char_digit c = true := hall c (by simp)
    have hc9 : c - 48 ≤ 9 := by
      simp only [is_char_digit, decide_eq_true_eq] at hc; omega
    simp only [List.foldl_cons, List.length_cons]
    have h1 := ih (a * 10 + (c - 48)) (fun d hd => hall d (by simp [hd]))
    have h2 : (a * 10 + (c - 48) + 1) * 10 ^ t.length ≤ (a + 1) * 10 ^ (t.length + 1) := by
      have : a * 10 + (c - 48) + 1 ≤ (a + 1) * 10 := by omega
      calc (a * 10 + (c - 48) + 1) * 10 ^ t.length
          ≤ (a + 1) * 10 * 10 ^ t.length := Nat.mul_le_mul_right _ this
        _ = (a + 1) * 10 ^ (t.length + 1) := by ring
    omega

theorem natOfDigits_lt (l : Str) (h : ∀ c ∈ l, is_char_digit c = true) :
    natOfDigits l < 10 ^ l.length := by
  have := natOfDigits_lt_aux l 0 h
  simpa [natOfDigits] using this

/-! ### Characterization of the digit-run parsers -/

theorem takeWhileMN_nn_ok (n : Nat) (p : Nat → Bool) (i : Str)
    (h : n ≤ (i.takeWhile p).length) :
    takeWhileMN n n p i = .ok (i.drop n) (i.take n) := by
  simp [takeWhileMN, h, Nat.min_eq_right, Nat.le_refl]

theorem takeWhileMN_err (m n : Nat) (p : Nat → Bool) (i : Str)
    (h : ¬ m ≤ (i.takeWhile p).length) :
    takeWhileMN m n p i = .err i := by
  simp [takeWhileMN, h]

theorem take_n_digits_ok (tmax n : Nat) (i : Str)
    (h : n ≤ (i.takeWhile is_char_digit).length)
    (hv : natOfDigits (i.take n) ≤ tmax) :
    take_n_digits tmax n i = .ok (i.drop n) (natOfDigits (i.take n)) := by
  simp [take_n_digits, takeWhileMN_nn_ok n is_char_digit i h, hv]

theorem take_n_digits_shape_err (tmax n : Nat) (i : Str)
    (h : ¬ n ≤ (i.takeWhile is_char_digit).length) :
    take_n_digits tmax n i = .err i := by
  simp [take_n_digits, takeWhileMN_err n n is_char_digit i h]

theorem tndr_eval (tmax n lo hi : Nat) (i : Str)
    (h : n ≤ (i.takeWhile is_char_digit).length)
    (hv : natOfDigits (i.take n) ≤ tmax) :
    take_n_digits_in_range tmax n lo hi i =
      if lo ≤ natOfDigits (i.take n) ∧ natOfDigits (i.take n) ≤ hi then
        .ok (i.drop n) (natOfDigits (i.take n))
      else .err i := by
  simp [take_n_digits_in_range, take_n_digits_ok tmax n i h hv]

theorem tndr_shape_err (tmax n lo hi : Nat) (i : Str)
    (h : ¬ n ≤ (i.takeWhile is_char_digit).length) :
    take_n_digits_in_range tmax n lo hi i = .err i := by
  simp [take_n_digits_in_range, take_n_digits_shape_err tmax n i h]

/-! ### Theorems -/

/-- C5: `parse_julian_date` parses a signed 4-digit year and a 3-digit
day-of-year and yields January 1 of that year plus `day_of_year - 1` days,
rolling across month and leap-year boundaries: `"2020046"` gives 2020-02-15
(2020 is a leap year), `"2019046"` gives 2019-02-15, and the conversion also
rolls over the February boundary in both leap and non-leap years
(`"2020060"` gives 2020-02-29 while `"2019060"` gives 2019-03-01). -/
theorem julian_date_conversion :
    parse_julian_date (codes "2020046") = .ok [] ⟨2020, 2, 15⟩ ∧
    parse_julian_date (codes "2019046") = .ok [] ⟨2019, 2, 15⟩ ∧
    parse_julian_date (codes "2020060") = .ok [] ⟨2020, 2, 29⟩ ∧
    parse_julian_date (codes "2019060") = .ok [] ⟨2019, 3, 1⟩ := by
  refine ⟨?_, ?_, ?_, ?_⟩ <;> decide

/-- C9: the Julian day-of-year field accepts `000`, in which case the
unconditional `(day_of_year - 1)`-day offset from January 1 lands on
December 31 of the preceding year, and a day-of-year exceeding the length of
the year rolls into the following year (`367` in the 366-day year 2020 gives
2021-01-01). -/
theorem julian_date_edge_days :
    parse_julian_date (codes "2020000") = .ok [] ⟨2019, 12, 31⟩ ∧
    parse_julian_date (codes "2020367") = .ok [] ⟨2021, 1, 1⟩ := by
  exact ⟨by decide, by decide⟩

/-- C2: the parsing entry points are *not* total.  The Sentinel-2 relative
orbit number is parsed by `take_n_digits_in_range(3, 1..=143)` at type `u8`,
so the digit run `999` satisfies the digit-only precondition yet
`"999".parse::<u8>()` fails (999 > 255) and the `expect` inside
`take_n_digits` panics: on input `"R999"` the parser aborts instead of
returning a value or a positioned error. -/
theorem orbit_number_overflow_panic :
    parse_relative_orbit_number (codes "R999") = .panic ∧
    take_n_digits u8Max 3 (codes "999") = .panic := by
  exact ⟨by decide, by decide⟩

/-- C1 (counterexample): a registry whose grammars all fail at the largest
offset 0 does not return the first such grammar's error.  The single grammar
fails with `FailedAtPosition 0`, but `from_str` returns its initial
accumulator `NotEnoughData 0` because the strict comparison
`e.error_pos() > closest.error_pos()` never replaces it. -/
theorem dispatch_zero_offset_counterexample :
    mapParserFn (fun s => pmap (fun _ => (0 : Nat)) (tagNoCase [120] s)) (codes "a")
      = .err (.FailedAtPosition 0) ∧
    from_str [fun s => pmap (fun _ => (0 : Nat)) (tagNoCase [120] s)] (codes "a")
      = .err (.NotEnoughData 0) ∧
    ParseError.NotEnoughData 0 ≠ ParseError.FailedAtPosition 0 := by
  exact ⟨by decide, by decide, by decide⟩

/-- C7 (counterexample): `"20230230"` is *not* accepted as a date value by the
calendar-date parser: all three field parsers succeed (month `02` is in
`1..=12`, day `30` is in `1..=31`), but `NaiveDate::from_ymd(2023, 2, 30)`
panics, so the parse aborts rather than producing a value. -/
theorem simple_date_feb30_panics :
    parse_simple_date (codes "20230230") = .panic := by
  decide

/-- C3: when the input begins with `n` ASCII digits whose value fits the target
type but lies outside `lo..=hi`, `take_n_digits_in_range` fails with the error
built from the input *before* any digit was consumed (the start of the field),
and a shape failure at the same field (fewer than `n` leading digits) carries
exactly the same error position, so the two kinds of failure are comparable by
offset. -/
theorem range_violation_at_field_start (tmax n lo hi : Nat) (i : Str)
    (hn : n ≤ i.length) (hdig : ∀ c ∈ i.take n, is_char_digit c = true)
    (hmax : natOfDigits (i.take n) ≤ tmax)
    (hout : ¬(lo ≤ natOfDigits (i.take n) ∧ natOfDigits (i.take n) ≤ hi)) :
    take_n_digits_in_range tmax n lo hi i = .err i ∧
    ∀ j : Str, (j.takeWhile is_char_digit).length < n →
      take_n_digits_in_range tmax n lo hi j = .err j := by
  constructor
  · have h := tw_len_ge is_char_digit i n hdig hn
    rw [tndr_eval tmax n lo hi i h hmax]
    simp [hout]
  · intro j hj
    exact tndr_shape_err tmax n lo hi j (by omega)

/-- C3 witness: the month parser bound `1..=12` rejects `"13"` with the full
field input as error payload, and rejects the shape failure `"1x"` with the
same payload form. -/
theorem range_violation_at_field_start_witness :
    take_n_digits_in_range u32Max 2 1 12 (codes "13") = .err (codes "13") ∧
    take_n_digits_in_range u32Max 2 1 12 (codes "1x") = .err (codes "1x") := by
  constructor
  · exact (range_violation_at_field_start u32Max 2 1 12 (codes "13") (by decide)
      (by decide) (by decide) (by decide)).1
  · exact (range_violation_at_field_start u32Max 2 1 12 (codes "13") (by decide)
      (by decide) (by decide) (by decide)).2 (codes "1x") (by decide)

/-- C6: on an input whose first two characters are ASCII digits, the hour field
parser succeeds exactly when the two-digit value is at most 24, the minute
parser exactly when it is at most 59, and the second parser exactly when it is
at most 60; otherwise each fails at the start of the field. -/
theorem time_field_bounds (i : Str) (h2 : 2 ≤ i.length)
    (hdig : ∀ c ∈ i.take 2, is_char_digit c = true) :
    time_hour i = (if natOfDigits (i.take 2) ≤ 24 then
        .ok (i.drop 2) (natOfDigits (i.take 2)) else .err i) ∧
    time_minute i = (if natOfDigits (i.take 2) ≤ 59 then
        .ok (i.drop 2) (natOfDigits (i.take 2)) else .err i) ∧
    time_second i = (if natOfDigits (i.take 2) ≤ 60 then
        .ok (i.drop 2) (natOfDigits (i.take 2)) else .err i) := by
  have htw := tw_len_ge is_char_digit i 2 hdig h2
  have hmax : natOfDigits (i.take 2) ≤ u32Max := by
    have hlt := natOfDigits_lt (i.take 2) hdig
    have hlen : (i.take 2).length ≤ 2 := by
      simp [List.length_take]
    have : (10 : Nat) ^ (i.take 2).length ≤ 10 ^ 2 :=
      Nat.pow_le_pow_right (by omega) hlen
    simp only [u32Max]
    omega
  refine ⟨?_, ?_, ?_⟩ <;>
    simp [time_hour, time_minute, time_second, tndr_eval _ 2 _ _ i htw hmax, Nat.zero_le]

/-- C6 witness: the edge values 24 (hour) and 60 (second) are admitted at the
field level while 25 (hour), 60 (minute) and 61 (second) are rejected. -/
theorem time_field_bounds_witness :
    time_hour (codes "24") = .ok [] 24 ∧
    time_hour (codes "25") = .err (codes "25") ∧
    time_minute (codes "59") = .ok [] 59 ∧
    time_minute (codes "60") = .err (codes "60") ∧
    time_second (codes "60") = .ok [] 60 ∧
    time_second (codes "61") = .err (codes "61") := by
  refine ⟨?_, ?_, ?_, ?_, ?_, ?_⟩
  · exact ((time_field_bounds (codes "24") (by decide) (by decide)).1).trans (by decide)
  · exact ((time_field_bounds (codes "25") (by decide) (by decide)).1).trans (by decide)
  · exact ((time_field_bounds (codes "59") (by decide) (by decide)).2.1).trans (by decide)
  · exact ((time_field_bounds (codes "60") (by decide) (by decide)).2.1).trans (by decide)
  · exact ((time_field_bounds (codes "60") (by decide) (by decide)).2.2).trans (by decide)
  · exact ((time_field_bounds (codes "61") (by decide) (by decide)).2.2).trans (by decide)

/-! ### Dispatch lemmas -/

theorem mapParserFn_ok {α : Type} (p : Str → PResult α) (s rest : Str) (v : α)
    (h : p s = .ok rest v) : mapParserFn p s = .ok v := by
  simp [mapParserFn, h]

theorem fromStrAux_all_err_prefix {α : Type} (s : Str) (M : Nat) :
    ∀ (ps1 : List (Str → PResult α)) (acc : ParseError) (t : List (Str → PResult α)),
      (∀ q ∈ ps1, ∃ e1, mapParserFn q s = .err e1 ∧ e1.error_pos < M) →
      acc.error_pos < M →
      ∃ acc2, fromStrAux s acc (ps1 ++ t) = fromStrAux s acc2 t ∧ acc2.error_pos < M := by
  intro ps1
  induction ps1 with
  | nil => intro acc t _ hacc; exact ⟨acc, rfl, hacc⟩
  | cons q qs ih =>
    intro acc t hall hacc
    obtain ⟨e1, he, hlt⟩ := hall q (by simp)
    simp only [List.cons_append, fromStrAux, he]
    have hnew : (if e1.error_pos > acc.error_pos then e1 else acc).error_pos < M := by
      split <;> omega
    exact ih _ t (fun r hr => hall r (by simp [hr])) hnew

theorem fromStrAux_keep_max {α : Type} (s : Str) (acc : ParseError) :
    ∀ t : List (Str → PResult α),
      (∀ q ∈ t, ∃ e2, mapParserFn q s = .err e2 ∧ e2.error_pos ≤ acc.error_pos) →
      fromStrAux s acc t = .err acc := by
  intro t
  induction t with
  | nil => intro _; rfl
  | cons q qs ih =>
    intro hall
    obtain ⟨e2, he, hle⟩ := hall q (by simp)
    simp only [fromStrAux, he]
    rw [if_neg (by omega)]
    exact ih (fun r hr => hall r (by simp [hr]))

theorem fromStrAux_first_ok {α : Type} (s : Str) (p : Str → PResult α)
    (ps2 : List (Str → PResult α)) (v : α) (hp : mapParserFn p s = .ok v) :
    ∀ (ps1 : List (Str → PResult α)) (acc : ParseError),
      (∀ q ∈ ps1, ∃ e1, mapParserFn q s = .err e1) →
      fromStrAux s acc (ps1 ++ p :: ps2) = .ok v := by
  intro ps1
  induction ps1 with
  | nil => intro acc _; simp only [List.nil_append, fromStrAux, hp]
  | cons q qs ih =>
    intro acc hall
    obtain ⟨e1, he⟩ := hall q (by simp)
    simp only [List.cons_append, fromStrAux, he]
    exact ih _ (fun r hr => hall r (by simp [hr]))

/-- C1 (amended): when every registered grammar fails and the largest error
offset `e.error_pos` is *positive*, `from_str` returns the error of the
first-registered grammar attaining that offset: every earlier grammar fails
with a strictly smaller offset and every later one with an offset that is no
larger.  (At largest offset 0 the dispatcher instead returns its initial
`NotEnoughData 0` accumulator — see the counterexample theorem.) -/
theorem dispatch_furthest_error {α : Type} (ps1 ps2 : List (Str → PResult α))
    (p : Str → PResult α) (s : Str) (e : ParseError)
    (hpos : 0 < e.error_pos)
    (hp : mapParserFn p s = .err e)
    (h1 : ∀ q ∈ ps1, ∃ e1, mapParserFn q s = .err e1 ∧ e1.error_pos < e.error_pos)
    (h2 : ∀ q ∈ ps2, ∃ e2, mapParserFn q s = .err e2 ∧ e2.error_pos ≤ e.error_pos) :
    from_str (ps1 ++ p :: ps2) s = .err e := by
  unfold from_str
  obtain ⟨acc2, heq, hacc⟩ := fromStrAux_all_err_prefix s e.error_pos ps1
    (.NotEnoughData 0) (p :: ps2) h1 (by simpa [ParseError.error_pos] using hpos)
  rw [heq]
  simp only [fromStrAux, hp]
  rw [if_pos (by omega)]
  exact fromStrAux_keep_max s e ps2 h2

/-- C1 witness: registry of three grammars on input `"ac"`; the first and last
fail at offset 0, the middle one consumes the `a` and fails at offset 1, so its
error is returned. -/
theorem dispatch_furthest_error_witness :
    from_str
      [ fun s => pmap (fun _ => (1 : Nat)) (tagP [120] s),
        fun s => pbind (tagNoCase [97] s) fun r _ =>
          pmap (fun _ => (5 : Nat)) (tagNoCase [98] r),
        fun s => pmap (fun _ => (9 : Nat)) (tagP [120] s) ]
      (codes "ac") = .err (.FailedAtPosition 1) := by
  exact dispatch_furthest_error
    [fun s => pmap (fun _ => (1 : Nat)) (tagP [120] s)]
    [fun s => pmap (fun _ => (9 : Nat)) (tagP [120] s)]
    (fun s => pbind (tagNoCase [97] s) fun r _ =>
      pmap (fun _ => (5 : Nat)) (tagNoCase [98] r))
    (codes "ac") (.FailedAtPosition 1) (by decide) (by decide)
    (by
      intro q hq
      simp only [List.mem_singleton] at hq
      subst hq
      exact ⟨.FailedAtPosition 0, by decide, by decide⟩)
    (by
      intro q hq
      simp only [List.mem_singleton] at hq
      subst hq
      exact ⟨.FailedAtPosition 0, by decide, by decide⟩)

/-- C8: if every grammar before `p` in the registry fails and `p` succeeds —
possibly with a non-empty unconsumed suffix `rest` — then `Identifier::from_str`
returns `p`'s typed value with the suffix discarded, whatever grammars follow
`p` in the registry (they are never consulted). -/
theorem dispatch_first_success {α : Type} (ps1 ps2 : List (Str → PResult α))
    (p : Str → PResult α) (s rest : Str) (v : α)
    (h1 : ∀ q ∈ ps1, ∃ e1, mapParserFn q s = .err e1)
    (hp : p s = .ok rest v) :
    from_str (ps1 ++ p :: ps2) s = .ok v := by
  unfold from_str
  exact fromStrAux_first_ok s p ps2 v (mapParserFn_ok p s rest v hp) ps1 _ h1

/-- C8 witness: the middle grammar matches `"a"` leaving the unconsumed suffix
`"b"`, the first grammar fails, and a later grammar that would also succeed is
ignored: the result is the middle grammar's value 7. -/
theorem dispatch_first_success_witness :
    from_str
      [ fun s => pmap (fun _ => (1 : Nat)) (tagP [120] s),
        fun s => pmap (fun _ => (7 : Nat)) (tagNoCase [97] s),
        fun s => pmap (fun _ => (9 : Nat)) (tagNoCase [97] s) ]
      (codes "ab") = .ok 7 := by
  exact dispatch_first_success
    [fun s => pmap (fun _ => (1 : Nat)) (tagP [120] s)]
    [fun s => pmap (fun _ => (9 : Nat)) (tagNoCase [97] s)]
    (fun s => pmap (fun _ => (7 : Nat)) (tagNoCase [97] s))
    (codes "ab") [98] 7
    (by
      intro q hq
      simp only [List.mem_singleton] at hq
      subst hq
      exact ⟨.FailedAtPosition 0, by decide⟩)
    (by decide)

/-! ### Exact-field characterizations -/

theorem tnd_exact (tmax : Nat) (ds rest : Str)
    (hd : ∀ c ∈ ds, is_char_digit c = true) (hv : natOfDigits ds ≤ tmax) :
    take_n_digits tmax ds.length (ds ++ rest) = .ok rest (natOfDigits ds) := by
  have hall : ∀ c ∈ (ds ++ rest).take ds.length, is_char_digit c = true := by
    rw [take_app_le ds.length ds rest (Nat.le_refl _), List.take_length]
    exact hd
  have htw := tw_len_ge is_char_digit (ds ++ rest) ds.length hall (by simp)
  have h := take_n_digits_ok tmax ds.length (ds ++ rest) htw
    (by rwa [take_app_le ds.length ds rest (Nat.le_refl _), List.take_length])
  rw [take_app_le ds.length ds rest (Nat.le_refl _), List.take_length,
    drop_app_le ds.length ds rest (Nat.le_refl _), List.drop_length,
    List.nil_append] at h
  exact h

theorem tndr_exact (tmax lo hi : Nat) (ds rest : Str)
    (hd : ∀ c ∈ ds, is_char_digit c = true) (hv : natOfDigits ds ≤ tmax) :
    take_n_digits_in_range tmax ds.length lo hi (ds ++ rest) =
      if lo ≤ natOfDigits ds ∧ natOfDigits ds ≤ hi then .ok rest (natOfDigits ds)
      else .err (ds ++ rest) := by
  unfold take_n_digits_in_range
  rw [tnd_exact tmax ds rest hd hv]

theorem sign_err_digit (c : Nat) (t : Str) (h : is_char_digit c = true) :
    sign (c :: t) = .err (c :: t) := by
  simp only [is_char_digit, decide_eq_true_eq] at h
  have h45 : c ≠ 45 := by omega
  have h43 : c ≠ 43 := by omega
  simp [sign, altL, porelse, tagP, pmap, h45, h43]

theorem date_year_digits (y4 rest : Str) (h4 : y4.length = 4)
    (hd : ∀ c ∈ y4, is_char_digit c = true) :
    date_year (y4 ++ rest) = .ok rest ((natOfDigits y4 : Int)) := by
  obtain ⟨c, t, rfl⟩ : ∃ c t, y4 = c :: t := by
    cases y4 with
    | nil => simp at h4
    | cons a b => exact ⟨a, b, rfl⟩
  have hc := hd c (by simp)
  have hs : sign (c :: (t ++ rest)) = .err (c :: (t ++ rest)) :=
    sign_err_digit c (t ++ rest) hc
  have hmax : natOfDigits (c :: t) ≤ u32Max := by
    have hlt := natOfDigits_lt (c :: t) hd
    rw [h4] at hlt
    simp only [u32Max]
    omega
  have htnd := tnd_exact u32Max (c :: t) rest hd hmax
  rw [h4] at htnd
  unfold date_year
  rw [List.cons_append]
  simp only [popt, hs, pbind]
  rw [← List.cons_append, htnd]
  simp

/-- C7 (amended): the calendar-date parser does not cross-validate the day
against month length or leap year at the *field* level — any 4-digit year,
2-digit month in `1..=12` and 2-digit day in `1..=31` passes all three field
parsers — but the subsequent `NaiveDate::from_ymd` construction panics on the
combinations that do not form a real calendar date, so an input like
`"20230230"` aborts the parse instead of being accepted (or rejected with a
positioned error). -/
theorem simple_date_no_cross_validation (y4 m2 d2 rest : Str)
    (h4 : y4.length = 4) (h2m : m2.length = 2) (h2d : d2.length = 2)
    (hdy : ∀ c ∈ y4, is_char_digit c = true)
    (hdm : ∀ c ∈ m2, is_char_digit c = true)
    (hdd : ∀ c ∈ d2, is_char_digit c = true)
    (hm : 1 ≤ natOfDigits m2 ∧ natOfDigits m2 ≤ 12)
    (hd : 1 ≤ natOfDigits d2 ∧ natOfDigits d2 ≤ 31) :
    parse_simple_date (y4 ++ (m2 ++ (d2 ++ rest))) =
      if validYmd (natOfDigits y4) (natOfDigits m2) (natOfDigits d2) then
        .ok rest ⟨(natOfDigits y4 : Int), natOfDigits m2, natOfDigits d2⟩
      else .panic := by
  have hmmax : natOfDigits m2 ≤ u32Max := by
    have hlt := natOfDigits_lt m2 hdm
    rw [h2m] at hlt
    simp only [u32Max]
    omega
  have hdmax : natOfDigits d2 ≤ u32Max := by
    have hlt := natOfDigits_lt d2 hdd
    rw [h2d] at hlt
    simp only [u32Max]
    omega
  have hmonth := tndr_exact u32Max 1 12 m2 (d2 ++ rest) hdm hmmax
  rw [h2m, if_pos hm] at hmonth
  have hday := tndr_exact u32Max 1 31 d2 rest hdd hdmax
  rw [h2d, if_pos hd] at hday
  unfold parse_simple_date
  rw [date_year_digits y4 (m2 ++ (d2 ++ rest)) h4 hdy]
  simp only [pbind, date_month, date_day, hmonth, hday]

/-- C7 (amended) witness: a valid combination is accepted with the field
values, evaluated at `"20231231"`. -/
theorem simple_date_no_cross_validation_witness :
    parse_simple_date (codes "20231231") = .ok [] ⟨2023, 12, 31⟩ := by
  have h := simple_date_no_cross_validation (codes "2023") (codes "12") (codes "31") []
    (by decide) (by decide) (by decide) (by decide) (by decide) (by decide)
    (by decide) (by decide)
  have heq : codes "20231231" = codes "2023" ++ (codes "12" ++ (codes "31" ++ [])) := by
    decide
  rw [heq]
  exact h.trans (by decide)

/-! ### Extension lemmas: a fixed-width parser that succeeds on `A` behaves the
same on `A ++ X`, consuming the same prefix and leaving `X` appended to the
unconsumed suffix. -/

theorem tw_head (p : Nat → Bool) (A : Str) (h : 1 ≤ (A.takeWhile p).length) :
    ∃ c t, A = c :: t ∧ p c = true := by
  cases A with
  | nil => simp [List.takeWhile] at h
  | cons c t =>
    by_cases hc : p c
    · exact ⟨c, t, rfl, hc⟩
    · rw [Bool.not_eq_true] at hc
      simp [List.takeWhile, hc] at h

theorem ext_takeWhileNN (n : Nat) (p : Nat → Bool) (A B X v : Str)
    (h : takeWhileMN n n p A = .ok B v) :
    takeWhileMN n n p (A ++ X) = .ok (B ++ X) v := by
  simp only [takeWhileMN] at h ⊢
  split at h
  case isTrue hk =>
    rw [Nat.min_eq_right hk] at h
    injection h with h1 h2
    have hk2 := tw_app_ge p A X n hk
    have hle : n ≤ A.length := le_trans hk (tw_len_le p A)
    rw [if_pos hk2, Nat.min_eq_right hk2, take_app_le n A X hle,
      drop_app_le n A X hle, h1, h2]
  case isFalse => exact absurd h (by simp)

theorem take_n_digits_panic (tmax n : Nat) (i : Str)
    (h : n ≤ (i.takeWhile is_char_digit).length)
    (hv : ¬ natOfDigits (i.take n) ≤ tmax) :
    take_n_digits tmax n i = .panic := by
  simp [take_n_digits, takeWhileMN_nn_ok n is_char_digit i h, hv]

theorem tnd_ok_inv (tmax n : Nat) (A r : Str) (y : Nat)
    (h : take_n_digits tmax n A = .ok r y) :
    n ≤ (A.takeWhile is_char_digit).length ∧ r = A.drop n ∧
      y = natOfDigits (A.take n) ∧ y ≤ tmax := by
  by_cases hk : n ≤ (A.takeWhile is_char_digit).length
  · by_cases hle : natOfDigits (A.take n) ≤ tmax
    · rw [take_n_digits_ok tmax n A hk hle] at h
      injection h with h1 h2
      exact ⟨hk, h1.symm, h2.symm, by omega⟩
    · rw [take_n_digits_panic tmax n A hk hle] at h
      exact absurd h (by simp)
  · rw [take_n_digits_shape_err tmax n A hk] at h
    exact absurd h (by simp)

theorem ext_take_n_digits (tmax n : Nat) (A B X : Str) (v : Nat)
    (h : take_n_digits tmax n A = .ok B v) :
    take_n_digits tmax n (A ++ X) = .ok (B ++ X) v := by
  obtain ⟨hk, rfl, rfl, hle⟩ := tnd_ok_inv tmax n A B v h
  have hlA : n ≤ A.length := le_trans hk (tw_len_le is_char_digit A)
  have hk2 := tw_app_ge is_char_digit A X n hk
  have h2 := take_n_digits_ok tmax n (A ++ X) hk2
    (by rwa [take_app_le n A X hlA])
  rwa [take_app_le n A X hlA, drop_app_le n A X hlA] at h2

theorem tndr_panic (tmax n lo hi : Nat) (i : Str)
    (h : n ≤ (i.takeWhile is_char_digit).length)
    (hv : ¬ natOfDigits (i.take n) ≤ tmax) :
    take_n_digits_in_range tmax n lo hi i = .panic := by
  simp [take_n_digits_in_range, take_n_digits_panic tmax n i h hv]

theorem tndr_ok_inv (tmax n lo hi : Nat) (A r : Str) (v : Nat)
    (h : take_n_digits_in_range tmax n lo hi A = .ok r v) :
    take_n_digits tmax n A = .ok r v ∧ lo ≤ v ∧ v ≤ hi := by
  by_cases hk : n ≤ (A.takeWhile is_char_digit).length
  · by_cases hle : natOfDigits (A.take n) ≤ tmax
    · rw [tndr_eval tmax n lo hi A hk hle] at h
      by_cases hin : lo ≤ natOfDigits (A.take n) ∧ natOfDigits (A.take n) ≤ hi
      · rw [if_pos hin] at h
        injection h with h1 h2
        subst h1; subst h2
        exact ⟨take_n_digits_ok tmax n A hk hle, hin.1, hin.2⟩
      · rw [if_neg hin] at h
        exact absurd h (by simp)
    · rw [tndr_panic tmax n lo hi A hk hle] at h
      exact absurd h (by simp)
  · rw [tndr_shape_err tmax n lo hi A hk] at h
    exact absurd h (by simp)

theorem ext_tndr (tmax n lo hi : Nat) (A B X : Str) (v : Nat)
    (h : take_n_digits_in_range tmax n lo hi A = .ok B v) :
    take_n_digits_in_range tmax n lo hi (A ++ X) = .ok (B ++ X) v := by
  obtain ⟨htd, hlo, hhi⟩ := tndr_ok_inv tmax n lo hi A B v h
  unfold take_n_digits_in_range
  rw [ext_take_n_digits tmax n A B X v htd]
  simp [hlo, hhi]

theorem ext_sign (A B X : Str) (v : Int) (h : sign A = .ok B v) :
    sign (A ++ X) = .ok (B ++ X) v := by
  cases A with
  | nil => simp [sign, altL, porelse, tagP, pmap] at h
  | cons c t =>
    by_cases h45 : c = 45
    · subst h45
      simp only [sign, altL, porelse, tagP, pmap, List.take_succ_cons, List.take_zero,
        List.length_cons, List.length_nil, List.cons_append] at h ⊢
      simp at h ⊢
      exact ⟨h.1, h.2⟩
    · by_cases h43 : c = 43
      · subst h43
        simp only [sign, altL, porelse, tagP, pmap, List.take_succ_cons, List.take_zero,
          List.length_cons, List.length_nil, List.cons_append] at h ⊢
        simp at h ⊢
        exact ⟨h.1, h.2⟩
      · simp [sign, altL, porelse, tagP, pmap, h45, h43] at h

theorem ext_date_year (A B X : Str) (v : Int) (h : date_year A = .ok B v) :
    date_year (A ++ X) = .ok (B ++ X) v := by
  unfold date_year at h ⊢
  cases hs : sign A with
  | ok r sv =>
    rw [show popt sign A = .ok r (some sv) by simp [popt, hs]] at h
    simp only [pbind] at h
    rw [show popt sign (A ++ X) = .ok (r ++ X) (some sv) by
      simp [popt, ext_sign A r X sv hs]]
    simp only [pbind]
    cases htd : take_n_digits u32Max 4 r with
    | ok r2 y =>
      rw [htd] at h
      simp only [pbind] at h
      rw [ext_take_n_digits u32Max 4 r r2 X y htd]
      simp only [pbind]
      injection h with h1 h2
      rw [h1, h2]
    | err e => rw [htd] at h; exact absurd h (by simp [pbind])
    | panic => rw [htd] at h; exact absurd h (by simp [pbind])
  | err e =>
    rw [show popt sign A = .ok A none by simp [popt, hs]] at h
    simp only [pbind] at h
    cases htd : take_n_digits u32Max 4 A with
    | ok r2 y =>
      rw [htd] at h
      simp only [pbind] at h
      obtain ⟨hk, _, _, _⟩ := tnd_ok_inv u32Max 4 A r2 y htd
      obtain ⟨c, t, rfl, hdig⟩ := tw_head is_char_digit A (by omega)
      have hsX : sign (c :: (t ++ X)) = .err (c :: (t ++ X)) :=
        sign_err_digit c (t ++ X) hdig
      have hpoptX : popt sign ((c :: t) ++ X) = .ok ((c :: t) ++ X) none := by
        rw [List.cons_append]
        simp [popt, hsX]
      rw [hpoptX]
      simp only [pbind]
      rw [ext_take_n_digits u32Max 4 (c :: t) r2 X y htd]
      simp only [pbind]
      injection h with h1 h2
      rw [h1, h2]
    | err e2 => rw [htd] at h; exact absurd h (by simp [pbind])
    | panic => rw [htd] at h; exact absurd h (by simp [pbind])
  | panic =>
    rw [show popt sign A = .panic by simp [popt, hs]] at h
    simp only [pbind] at h
    exact absurd h (by simp)

theorem ext_parse_simple_date (A B X : Str) (d : Date)
    (h : parse_simple_date A = .ok B d) :
    parse_simple_date (A ++ X) = .ok (B ++ X) d := by
  unfold parse_simple_date at h ⊢
  cases hy : date_year A with
  | ok r y =>
    rw [hy] at h
    simp only [pbind] at h
    rw [ext_date_year A r X y hy]
    simp only [pbind]
    cases hm : date_month r with
    | ok r2 m =>
      rw [hm] at h
      simp only [pbind] at h
      rw [show date_month (r ++ X) = .ok (r2 ++ X) m from
        ext_tndr u32Max 2 1 12 r r2 X m hm]
      simp only [pbind]
      cases hdd : date_day r2 with
      | ok r3 dd =>
        rw [hdd] at h
        simp only [pbind] at h
        rw [show date_day (r2 ++ X) = .ok (r3 ++ X) dd from
          ext_tndr u32Max 2 1 31 r2 r3 X dd hdd]
        simp only [pbind]
        by_cases hval : validYmd y m dd = true
        · rw [if_pos hval] at h ⊢
          injection h with h1 h2
          rw [h1, h2]
        · rw [if_neg hval] at h
          exact absurd h (by simp)
      | err e => rw [hdd] at h; exact absurd h (by simp [pbind])
      | panic => rw [hdd] at h; exact absurd h (by simp [pbind])
    | err e => rw [hm] at h; exact absurd h (by simp [pbind])
    | panic => rw [hm] at h; exact absurd h (by simp [pbind])
  | err e => rw [hy] at h; exact absurd h (by simp [pbind])
  | panic => rw [hy] at h; exact absurd h (by simp [pbind])

theorem parse_simple_time_head (T r : Str) (t : Time)
    (h : parse_simple_time T = .ok r t) :
    ∃ c t2, T = c :: t2 ∧ is_char_digit c = true := by
  unfold parse_simple_time at h
  cases hh : time_hour T with
  | ok r1 hv =>
    obtain ⟨htd, _, _⟩ := tndr_ok_inv u32Max 2 0 24 T r1 hv hh
    obtain ⟨hk, _, _, _⟩ := tnd_ok_inv u32Max 2 T r1 hv htd
    exact tw_head is_char_digit T (by omega)
  | err e => rw [hh] at h; exact absurd h (by simp [pbind])
  | panic => rw [hh] at h; exact absurd h (by simp [pbind])

/-- C4: for every 8-character date string `D` accepted by the calendar-date
parser and 6-character time string `T` accepted by the time parser,
`parse_esa_timestamp` yields the identical date-time value on `D ++ "T" ++ T`
(code 84 is `T`) and on `D ++ T`: the separator is optional and its presence
does not change the parsed value. -/
theorem esa_timestamp_separator_equiv (D T6 : Str) (dv : Date) (tv : Time)
    (hD8 : D.length = 8) (hT6 : T6.length = 6)
    (hd : parse_simple_date D = .ok [] dv)
    (ht : parse_simple_time T6 = .ok [] tv) :
    parse_esa_timestamp (D ++ (84 :: T6)) = .ok [] ⟨dv, tv⟩ ∧
    parse_esa_timestamp (D ++ T6) = .ok [] ⟨dv, tv⟩ := by
  obtain ⟨c, t2, rfl, hdig⟩ := parse_simple_time_head T6 [] tv ht
  have hdigc : 48 ≤ c ∧ c ≤ 57 := by simpa [is_char_digit] using hdig
  constructor
  · unfold parse_esa_timestamp
    have h1 := ext_parse_simple_date D [] (84 :: c :: t2) dv hd
    rw [List.nil_append] at h1
    rw [h1]
    simp only [pbind]
    have hts : t_separator (84 :: c :: t2) = .ok (c :: t2) () := by
      simp [t_separator, tagNoCase, pmap, lowerStr, lowerCode]
    rw [show popt t_separator (84 :: c :: t2) = .ok (c :: t2) (some ()) by
      simp [popt, hts]]
    simp only [pbind]
    rw [ht]
  · unfold parse_esa_timestamp
    have h1 := ext_parse_simple_date D [] (c :: t2) dv hd
    rw [List.nil_append] at h1
    rw [h1]
    simp only [pbind]
    have hlc : lowerCode c = c := by
      simp only [lowerCode]
      rw [if_neg (by omega)]
    have h116 : lowerCode 116 = 116 := by decide
    have hcond : ¬ (lowerStr [c] = lowerStr [116]) := by
      simp [lowerStr, hlc, h116]
      omega
    have hts : t_separator (c :: t2) = .err (c :: t2) := by
      simp [t_separator, tagNoCase, pmap, hcond]
    rw [show popt t_separator (c :: t2) = .ok (c :: t2) none by simp [popt, hts]]
    simp only [pbind]
    rw [ht]

/-- C4 witness: `"20200207T051836"` and `"20200207051836"` both parse to
2020-02-07 05:18:36. -/
theorem esa_timestamp_separator_equiv_witness :
    parse_esa_timestamp (codes "20200207T051836") =
      .ok [] ⟨⟨2020, 2, 7⟩, ⟨5, 18, 36⟩⟩ ∧
    parse_esa_timestamp (codes "20200207051836") =
      .ok [] ⟨⟨2020, 2, 7⟩, ⟨5, 18, 36⟩⟩ := by
  have h := esa_timestamp_separator_equiv (codes "20200207") (codes "051836")
    ⟨2020, 2, 7⟩ ⟨5, 18, 36⟩ (by decide) (by decide) (by decide) (by decide)
  constructor
  · rw [show codes "20200207T051836" = codes "20200207" ++ (84 :: codes "051836")
      by decide]
    exact h.1
  · rw [show codes "20200207051836" = codes "20200207" ++ codes "051836" by decide]
    exact h.2

/-! ### Case-folding lemmas -/

theorem lowerCode_idem (c : Nat) : lowerCode (lowerCode c) = lowerCode c := by
  simp only [lowerCode]
  by_cases h : 65 ≤ c ∧ c ≤ 90
  · rw [if_pos h, if_neg (by omega)]
  · rw [if_neg h, if_neg h]

theorem lowerStr_idem (s : Str) : lowerStr (lowerStr s) = lowerStr s := by
  induction s with
  | nil => rfl
  | cons c t ih =>
    show lowerCode (lowerCode c) :: lowerStr (lowerStr t) = lowerCode c :: lowerStr t
    rw [lowerCode_idem, ih]

theorem lowerStr_length (s : Str) : (lowerStr s).length = s.length :=
  List.length_map s lowerCode

theorem lowerStr_take : ∀ (n : Nat) (s : Str), (lowerStr s).take n = lowerStr (s.take n) := by
  intro n
  induction n with
  | zero => intro s; rfl
  | succ k ih =>
    intro s
    cases s with
    | nil => rfl
    | cons c t =>
      show lowerCode c :: (lowerStr t).take k = lowerCode c :: lowerStr (t.take k)
      rw [ih]

theorem lowerStr_drop : ∀ (n : Nat) (s : Str), (lowerStr s).drop n = lowerStr (s.drop n) := by
  intro n
  induction n with
  | zero => intro s; rfl
  | succ k ih =>
    intro s
    cases s with
    | nil => rfl
    | cons c t => exact ih t

theorem is_char_digit_lower (c : Nat) : is_char_digit (lowerCode c) = is_char_digit c := by
  by_cases h : 65 ≤ c ∧ c ≤ 90
  · rw [show lowerCode c = c + 32 by simp only [lowerCode]; rw [if_pos h]]
    simp only [is_char_digit, decide_eq_decide]
    omega
  · rw [show lowerCode c = c by simp only [lowerCode]; rw [if_neg h]]

theorem is_char_alphanumeric_lower (c : Nat) :
    is_char_alphanumeric (lowerCode c) = is_char_alphanumeric c := by
  by_cases h : 65 ≤ c ∧ c ≤ 90
  · rw [show lowerCode c = c + 32 by simp only [lowerCode]; rw [if_pos h]]
    simp only [is_char_alphanumeric, decide_eq_decide]
    omega
  · rw [show lowerCode c = c by simp only [lowerCode]; rw [if_neg h]]

theorem upperCode_lower (c : Nat) : upperCode (lowerCode c) = upperCode c := by
  by_cases h : 65 ≤ c ∧ c ≤ 90
  · rw [show lowerCode c = c + 32 by simp only [lowerCode]; rw [if_pos h]]
    simp only [upperCode]
    rw [if_pos (by omega), if_neg (by omega)]
    omega
  · rw [show lowerCode c = c by simp only [lowerCode]; rw [if_neg h]]

theorem upperStr_lower (s : Str) : upperStr (lowerStr s) = upperStr s := by
  induction s with
  | nil => rfl
  | cons c t ih =>
    show upperCode (lowerCode c) :: upperStr (lowerStr t) = upperCode c :: upperStr t
    rw [upperCode_lower, ih]

theorem takeWhile_lower (p : Nat → Bool) (hp : ∀ c, p (lowerCode c) = p c) :
    ∀ s : Str, (lowerStr s).takeWhile p = lowerStr (s.takeWhile p) := by
  intro s
  induction s with
  | nil => rfl
  | cons c t ih =>
    show List.takeWhile p (lowerCode c :: lowerStr t) = lowerStr ((c :: t).takeWhile p)
    rw [List.takeWhile_cons, List.takeWhile_cons, hp]
    by_cases hc : p c
    · rw [if_pos hc, if_pos hc, ih]
      rfl
    · rw [if_neg hc, if_neg hc]
      rfl

theorem twLen_lower (p : Nat → Bool) (hp : ∀ c, p (lowerCode c) = p c) (i : Str) :
    ((lowerStr i).takeWhile p).length = (i.takeWhile p).length := by
  rw [takeWhile_lower p hp i]
  exact List.length_map _ lowerCode

theorem lowerStr_of_digits : ∀ l : Str, (∀ c ∈ l, is_char_digit c = true) →
    lowerStr l = l := by
  intro l
  induction l with
  | nil => intro _; rfl
  | cons c t ih =>
    intro h
    have hc := h c (by simp)
    simp only [is_char_digit, decide_eq_true_eq] at hc
    show lowerCode c :: lowerStr t = c :: t
    rw [show lowerCode c = c by simp only [lowerCode]; rw [if_neg (by omega)],
      ih (fun d hd => h d (by simp [hd]))]

theorem prel_pbind {α β : Type} {r : α → α → Prop} {rb : β → β → Prop}
    {x x2 : PResult α} {f f2 : Str → α → PResult β}
    (hx : PRel r x x2)
    (hf : ∀ a v v2, r v v2 → PRel rb (f a v) (f2 (lowerStr a) v2)) :
    PRel rb (pbind x f) (pbind x2 f2) := by
  cases x with
  | ok a v =>
    cases x2 with
    | ok a2 v2 =>
      obtain ⟨ha, hv⟩ := hx
      subst ha
      exact hf a v v2 hv
    | err e => exact hx.elim
    | panic => exact hx.elim
  | err e =>
    cases x2 with
    | ok a2 v2 => exact hx.elim
    | err e2 => trivial
    | panic => exact hx.elim
  | panic =>
    cases x2 with
    | ok a2 v2 => exact hx.elim
    | err e2 => exact hx.elim
    | panic => trivial

theorem prel_pmap {α β : Type} {r : α → α → Prop} {rb : β → β → Prop}
    {x x2 : PResult α} {f : α → β}
    (hx : PRel r x x2) (hf : ∀ v v2, r v v2 → rb (f v) (f v2)) :
    PRel rb (pmap f x) (pmap f x2) := by
  cases x with
  | ok a v =>
    cases x2 with
    | ok a2 v2 =>
      obtain ⟨ha, hv⟩ := hx
      subst ha
      exact ⟨rfl, hf v v2 hv⟩
    | err e => exact hx.elim
    | panic => exact hx.elim
  | err e =>
    cases x2 with
    | ok a2 v2 => exact hx.elim
    | err e2 => trivial
    | panic => exact hx.elim
  | panic =>
    cases x2 with
    | ok a2 v2 => exact hx.elim
    | err e2 => exact hx.elim
    | panic => trivial

theorem prel_porelse {α : Type} {r : α → α → Prop}
    {x x2 : PResult α} {f f2 : Unit → PResult α}
    (hx : PRel r x x2) (hf : PRel r (f ()) (f2 ())) :
    PRel r (porelse x f) (porelse x2 f2) := by
  cases x with
  | ok a v =>
    cases x2 with
    | ok a2 v2 => exact hx
    | err e => exact hx.elim
    | panic => exact hx.elim
  | err e =>
    cases x2 with
    | ok a2 v2 => exact hx.elim
    | err e2 => exact hf
    | panic => exact hx.elim
  | panic =>
    cases x2 with
    | ok a2 v2 => exact hx.elim
    | err e2 => exact hx.elim
    | panic => trivial

theorem prel_altL {α : Type} {r : α → α → Prop} :
    ∀ ps : List (Str → PResult α),
      (∀ p ∈ ps, ∀ i, PRel r (p i) (p (lowerStr i))) →
      ∀ i, PRel r (altL ps i) (altL ps (lowerStr i)) := by
  intro ps
  induction ps with
  | nil => intro _ i; trivial
  | cons p qs ih =>
    intro hall i
    cases qs with
    | nil => exact hall p (by simp) i
    | cons q qs2 =>
      exact prel_porelse (hall p (by simp) i)
        (ih (fun p2 hp2 => hall p2 (by simp [hp2])) i)

theorem lowerCode_eq_lt65 (d c : Nat) (hc : c < 65) : lowerCode d = c ↔ d = c := by
  simp only [lowerCode]
  by_cases h : 65 ≤ d ∧ d ≤ 90
  · rw [if_pos h]
    omega
  · rw [if_neg h]

theorem lowerStr_eq_lt65 : ∀ (t x : Str), (∀ c ∈ t, c < 65) → (lowerStr x = t ↔ x = t) := by
  intro t
  induction t with
  | nil =>
    intro x _
    cases x with
    | nil => simp [lowerStr]
    | cons c xs => simp [lowerStr]
  | cons c t ih =>
    intro x hall
    cases x with
    | nil => simp [lowerStr]
    | cons d xs =>
      have h1 := lowerCode_eq_lt65 d c (hall c (by simp))
      have h2 := ih xs (fun e he => hall e (by simp [he]))
      show (lowerCode d :: lowerStr xs = c :: t) ↔ _
      simp only [List.cons.injEq]
      constructor
      · rintro ⟨ha, hb⟩; exact ⟨h1.mp ha, h2.mp hb⟩
      · rintro ⟨ha, hb⟩; exact ⟨h1.mpr ha, h2.mpr hb⟩

theorem cf_tagP_lt65 (t : Str) (ht : ∀ c ∈ t, c < 65) :
    ∀ i, PRel Eq (tagP t i) (tagP t (lowerStr i)) := by
  intro i
  unfold tagP
  by_cases h : i.take t.length = t
  · rw [if_pos h,
      if_pos (by rw [lowerStr_take t.length i, lowerStr_eq_lt65 t (i.take t.length) ht]; exact h)]
    exact ⟨lowerStr_drop t.length i, rfl⟩
  · rw [if_neg h, if_neg (fun hc => h (by
      rw [lowerStr_take t.length i, lowerStr_eq_lt65 t (i.take t.length) ht] at hc
      exact hc))]
    trivial

theorem cf_tagNoCase (t : Str) :
    ∀ i, PRel (fun _ _ => True) (tagNoCase t i) (tagNoCase t (lowerStr i)) := by
  intro i
  unfold tagNoCase
  by_cases h : lowerStr (i.take t.length) = lowerStr t
  · rw [if_pos h, if_pos (by rw [lowerStr_take t.length i, lowerStr_idem]; exact h)]
    exact ⟨lowerStr_drop t.length i, trivial⟩
  · rw [if_neg h, if_neg (fun hc => h (by
      rw [lowerStr_take t.length i, lowerStr_idem] at hc
      exact hc))]
    trivial

theorem cf_takeP (n : Nat) :
    ∀ i, PRel (fun _ _ => True) (takeP n i) (takeP n (lowerStr i)) := by
  intro i
  unfold takeP
  by_cases h : n ≤ i.length
  · rw [if_pos h, if_pos (by rw [lowerStr_length]; exact h)]
    exact ⟨lowerStr_drop n i, trivial⟩
  · rw [if_neg h, if_neg (by rw [lowerStr_length]; exact h)]
    trivial

theorem cf_takeWhileMN (m n : Nat) (p : Nat → Bool) (hp : ∀ c, p (lowerCode c) = p c) :
    ∀ i, PRel (fun v v2 => v2 = lowerStr v)
      (takeWhileMN m n p i) (takeWhileMN m n p (lowerStr i)) := by
  intro i
  simp only [takeWhileMN]
  rw [twLen_lower p hp i]
  by_cases h : m ≤ (i.takeWhile p).length
  · rw [if_pos h, if_pos h]
    exact ⟨lowerStr_drop _ i, lowerStr_take _ i⟩
  · rw [if_neg h, if_neg h]
    trivial

theorem cf_take_n_digits (tmax n : Nat) :
    ∀ i, PRel Eq (take_n_digits tmax n i) (take_n_digits tmax n (lowerStr i)) := by
  intro i
  by_cases hk : n ≤ (i.takeWhile is_char_digit).length
  · have hkl : n ≤ ((lowerStr i).takeWhile is_char_digit).length := by
      rw [twLen_lower is_char_digit is_char_digit_lower i]; exact hk
    have htake : (lowerStr i).take n = i.take n := by
      rw [lowerStr_take n i,
        lowerStr_of_digits (i.take n) (digits_of_take is_char_digit i n hk)]
    by_cases hle : natOfDigits (i.take n) ≤ tmax
    · rw [take_n_digits_ok tmax n i hk hle,
        take_n_digits_ok tmax n (lowerStr i) hkl (by rw [htake]; exact hle), htake]
      exact ⟨lowerStr_drop n i, rfl⟩
    · rw [take_n_digits_panic tmax n i hk hle,
        take_n_digits_panic tmax n (lowerStr i) hkl (by rw [htake]; exact hle)]
      trivial
  · have hkl : ¬ n ≤ ((lowerStr i).takeWhile is_char_digit).length := by
      rw [twLen_lower is_char_digit is_char_digit_lower i]; exact hk
    rw [take_n_digits_shape_err tmax n i hk,
      take_n_digits_shape_err tmax n (lowerStr i) hkl]
    trivial

theorem cf_tndr (tmax n lo hi : Nat) :
    ∀ i, PRel Eq (take_n_digits_in_range tmax n lo hi i)
      (take_n_digits_in_range tmax n lo hi (lowerStr i)) := by
  intro i
  have h := cf_take_n_digits tmax n i
  unfold take_n_digits_in_range
  cases h1 : take_n_digits tmax n i with
  | ok a v =>
    cases h2 : take_n_digits tmax n (lowerStr i) with
    | ok a2 v2 =>
      rw [h1, h2] at h
      obtain ⟨ha, hv⟩ := h
      subst ha; subst hv
      show PRel Eq (if lo ≤ v ∧ v ≤ hi then PResult.ok a v else PResult.err i)
        (if lo ≤ v ∧ v ≤ hi then PResult.ok (lowerStr a) v else PResult.err (lowerStr i))
      by_cases hin : lo ≤ v ∧ v ≤ hi
      · rw [if_pos hin, if_pos hin]
        exact ⟨rfl, rfl⟩
      · rw [if_neg hin, if_neg hin]
        trivial
    | err e => rw [h1, h2] at h; exact h.elim
    | panic => rw [h1, h2] at h; exact h.elim
  | err e =>
    cases h2 : take_n_digits tmax n (lowerStr i) with
    | ok a2 v2 => rw [h1, h2] at h; exact h.elim
    | err e2 => trivial
    | panic => rw [h1, h2] at h; exact h.elim
  | panic =>
    cases h2 : take_n_digits tmax n (lowerStr i) with
    | ok a2 v2 => rw [h1, h2] at h; exact h.elim
    | err e2 => rw [h1, h2] at h; exact h.elim
    | panic => trivial

theorem cf_popt_eq {α : Type} {p : Str → PResult α}
    (hp : ∀ i, PRel Eq (p i) (p (lowerStr i))) :
    ∀ i, PRel Eq (popt p i) (popt p (lowerStr i)) := by
  intro i
  have h := hp i
  unfold popt
  cases h1 : p i with
  | ok a v =>
    cases h2 : p (lowerStr i) with
    | ok a2 v2 =>
      rw [h1, h2] at h
      obtain ⟨ha, hv⟩ := h
      subst ha; subst hv
      exact ⟨rfl, rfl⟩
    | err e => rw [h1, h2] at h; exact h.elim
    | panic => rw [h1, h2] at h; exact h.elim
  | err e =>
    cases h2 : p (lowerStr i) with
    | ok a2 v2 => rw [h1, h2] at h; exact h.elim
    | err e2 => exact ⟨rfl, rfl⟩
    | panic => rw [h1, h2] at h; exact h.elim
  | panic =>
    cases h2 : p (lowerStr i) with
    | ok a2 v2 => rw [h1, h2] at h; exact h.elim
    | err e2 => rw [h1, h2] at h; exact h.elim
    | panic => trivial

theorem cf_sign : ∀ i, PRel Eq (sign i) (sign (lowerStr i)) := by
  intro i
  unfold sign
  have halt : PRel (fun v v2 : Str => v = v2) (altL [tagP [45], tagP [43]] i)
      (altL [tagP [45], tagP [43]] (lowerStr i)) := by
    refine prel_altL [tagP [45], tagP [43]] ?_ i
    intro p hp
    simp only [List.mem_cons, List.not_mem_nil, or_false] at hp
    rcases hp with rfl | rfl
    · exact cf_tagP_lt65 [45] (by decide)
    · exact cf_tagP_lt65 [43] (by decide)
  exact prel_pmap halt (fun v v2 hv => by rw [hv])

theorem cf_date_year : ∀ i, PRel Eq (date_year i) (date_year (lowerStr i)) := by
  intro i
  unfold date_year
  refine prel_pbind (cf_popt_eq cf_sign i) ?_
  intro a v v2 hv
  subst hv
  refine prel_pbind (cf_take_n_digits u32Max 4 a) ?_
  intro a2 y y2 hy
  subst hy
  exact ⟨rfl, rfl⟩

theorem cf_parse_julian_date :
    ∀ i, PRel Eq (parse_julian_date i) (parse_julian_date (lowerStr i)) := by
  intro i
  unfold parse_julian_date
  refine prel_pbind (cf_date_year i) ?_
  intro a y y2 hy
  subst hy
  have h := cf_take_n_digits i64Max 3 a
  cases h1 : take_n_digits i64Max 3 a with
  | ok s2 doy =>
    cases h2 : take_n_digits i64Max 3 (lowerStr a) with
    | ok s22 doy2 =>
      rw [h1, h2] at h
      obtain ⟨ha, hd⟩ := h
      subst ha; subst hd
      show PRel Eq
        (if chronoYearOk y then
          if chronoYearOk (civilFromDays (daysFromCivil y 1 1 + ((doy : Int) - 1))).year
          then PResult.ok s2 (civilFromDays (daysFromCivil y 1 1 + ((doy : Int) - 1)))
          else PResult.panic
        else PResult.err a)
        (if chronoYearOk y then
          if chronoYearOk (civilFromDays (daysFromCivil y 1 1 + ((doy : Int) - 1))).year
          then PResult.ok (lowerStr s2)
            (civilFromDays (daysFromCivil y 1 1 + ((doy : Int) - 1)))
          else PResult.panic
        else PResult.err (lowerStr a))
      by_cases h3 : chronoYearOk y = true
      · rw [if_pos h3, if_pos h3]
        by_cases h4 : chronoYearOk
            (civilFromDays (daysFromCivil y 1 1 + ((doy : Int) - 1))).year = true
        · rw [if_pos h4, if_pos h4]
          exact ⟨rfl, rfl⟩
        · rw [if_neg h4, if_neg h4]
          trivial
      · rw [if_neg h3, if_neg h3]
        trivial
    | err e => rw [h1, h2] at h; exact h.elim
    | panic => rw [h1, h2] at h; exact h.elim
  | err e =>
    cases h2 : take_n_digits i64Max 3 (lowerStr a) with
    | ok s22 doy2 => rw [h1, h2] at h; exact h.elim
    | err e2 => trivial
    | panic => rw [h1, h2] at h; exact h.elim
  | panic =>
    cases h2 : take_n_digits i64Max 3 (lowerStr a) with
    | ok s22 doy2 => rw [h1, h2] at h; exact h.elim
    | err e2 => rw [h1, h2] at h; exact h.elim
    | panic => trivial

theorem cf_parse_sensor (mission : Nat) :
    ∀ s, PRel Eq (parse_sensor s mission) (parse_sensor (lowerStr s) mission) := by
  intro s
  unfold parse_sensor
  refine prel_altL _ ?_ s
  intro p hp
  simp only [List.mem_cons, List.not_mem_nil, or_false] at hp
  rcases hp with rfl | rfl | rfl | rfl | rfl <;>
    exact fun i => prel_pmap (cf_tagNoCase _ i) (fun _ _ _ => rfl)

/-- C10: Landsat scene-id parsing is letter-case insensitive.  For every input,
`parse_scene_id` on the input and on its ASCII-lowercased form either both
fail, both panic, or both succeed with structurally equal `SceneId` records
(the unconsumed suffix of the second run being the lowercased suffix of the
first): all letter tags are matched case-insensitively and the ground-station
identifier is stored uppercased. -/
theorem scene_id_case_insensitive (i : Str) :
    PRel Eq (parse_scene_id i) (parse_scene_id (lowerStr i)) := by
  unfold parse_scene_id
  refine prel_pbind (cf_tagNoCase [108] i) ?_
  intro sS _ _ _
  refine prel_pbind (cf_takeP 1 sS) ?_
  intro s0 _ _ _
  refine prel_pbind (cf_tndr u8Max 1 1 9 s0) ?_
  intro s1 m m2 hm
  subst hm
  refine prel_pbind (cf_parse_sensor m sS) ?_
  intro _ sen sen2 hsen
  subst hsen
  refine prel_pbind (cf_take_n_digits u32Max 3 s1) ?_
  intro s2 wp wp2 hwp
  subst hwp
  refine prel_pbind (cf_take_n_digits u32Max 3 s2) ?_
  intro s3 wr wr2 hwr
  subst hwr
  refine prel_pbind (cf_parse_julian_date s3) ?_
  intro s4 acq acq2 hacq
  subst hacq
  refine prel_pbind (cf_takeWhileMN 3 3 is_char_alphanumeric is_char_alphanumeric_lower s4) ?_
  intro s5 gsi gsi2 hgsi
  subst hgsi
  refine prel_pbind (cf_take_n_digits u8Max 2 s5) ?_
  intro s6 avn avn2 havn
  subst havn
  exact ⟨rfl, by rw [upperStr_lower]⟩

/-- C10 witness: the documented scene id and its lowercased form are related by
the case-fold relation (both parse, to equal records). -/
theorem scene_id_case_insensitive_witness :
    PRel Eq (parse_scene_id (codes "LC80390222013076EDC00"))
      (parse_scene_id (codes "lc80390222013076edc00")) := by
  have h := scene_id_case_insensitive (codes "LC80390222013076EDC00")
  rw [show lowerStr (codes "LC80390222013076EDC00") =
    codes "lc80390222013076edc00" by decide] at h
  exact h

end EOIdent
